import Mathlib

/-!
Verification development for `eyetracking.py`, a client for a Mirametrix
eye-tracking device.  The Python source is shallowly embedded: strings are
`List Char`, the stream-reassembly buffer (`fill_buffer`), the message
interpreter (`parse_XML`), and the session lifecycle (`start_eyetracking`,
`stop_eyetracking`) become pure Lean functions with explicit state passing;
a Python exception (IndexError, xml ParseError) is modelled as `none` /
`Except.error`.
-/

namespace Eyetracking

/-- Convert a string literal to the `List Char` representation used throughout. -/
def chars (s : String) : List Char := s.toList

/-! ## Frame Reassembler (`fill_buffer`, source lines 190-215)

`rx()` strips `'\r'`, so the chunks reaching `fill_buffer` are split only at
`'\n'`.  `partial_XML.splitlines()` is modelled by `splitlines` below:
split at `'\n'`, dropping the final empty fragment when the string ends with
the separator (Python `str.splitlines` semantics on `'\n'`-only input). -/

/-- Split at every `'\n'`; always returns a non-empty list of fragments
(the fragment after a trailing separator is the empty string). -/
def splitNl : List Char → List (List Char)
  | [] => [[]]
  | c :: cs =>
    if c = '\n' then [] :: splitNl cs
    else
      match splitNl cs with
      | [] => [[c]]
      | f :: fs => (c :: f) :: fs

/-- Python `str.splitlines` on a `'\r'`-free string: like `splitNl` but the
empty string yields `[]` and a trailing separator contributes no final
empty fragment. -/
def splitlines (s : List Char) : List (List Char) :=
  if s = [] then []
  else if s.getLast? = some '\n' then (splitNl s).dropLast else splitNl s

/-- The `for line in line_list` loop of `fill_buffer` (source lines 206-214):
a fragment ending in `'>'` is appended to `line_buffer`, any other fragment
replaces `line_overflow`.  Python evaluates `line[-1]` first, which raises
IndexError on an empty fragment: modelled as `none`. -/
def bufferLoop (buf ov : List (List Char)) :
    List (List Char) → Option (List (List Char) × List (List Char))
  | [] => some (buf, ov)
  | l :: ls =>
    match l.getLast? with
    | none => none
    | some c => if c = '>' then bufferLoop (buf ++ [l]) ov ls else bufferLoop buf [l] ls

/-- One call of `fill_buffer` (source lines 191-215), with the global
`line_overflow` threaded explicitly and the received chunk as an argument.
If `line_overflow` is non-empty it is prepended to `line_list[0]` and
cleared (lines 201-203); `line_list[0]` on an empty list raises IndexError,
modelled as `none`.  Returns the emitted `line_buffer` and the new
`line_overflow`. -/
def fill_buffer (ov : List (List Char)) (chunk : List Char) :
    Option (List (List Char) × List (List Char)) :=
  match ov, splitlines chunk with
  | [], ls => bufferLoop [] [] ls
  | _ :: _, [] => none
  | o :: _, f :: fs => bufferLoop [] [] ((o ++ f) :: fs)

/-- Feed a sequence of chunks through successive `fill_buffer` calls,
threading `line_overflow`, and concatenate the emitted messages in order.
Any crash (`none`) in one pass aborts the whole feed. -/
def feedChunks (ov : List (List Char)) :
    List (List Char) → Option (List (List Char) × List (List Char))
  | [] => some ([], ov)
  | c :: cs =>
    match fill_buffer ov c with
    | none => none
    | some (b, ov1) =>
      match feedChunks ov1 cs with
      | none => none
      | some (b2, ov2) => some (b ++ b2, ov2)

/-- A well-formed protocol message: non-empty, contains no record separator,
and the terminator `'>'` occurs exactly once, at the end (the spec assumes
the terminator "never legitimately appears mid-attribute-value"). -/
def MsgOk (m : List Char) : Prop :=
  m ≠ [] ∧ '\n' ∉ m ∧ '>' ∉ m.dropLast ∧ m.getLast? = some '>'

instance (m : List Char) : Decidable (MsgOk m) := by
  unfold MsgOk; infer_instance

/-- The raw byte stream carrying a sequence of messages: each message
followed by the `'\n'` separator. -/
def stream (ms : List (List Char)) : List Char :=
  (ms.map (fun m => m ++ ['\n'])).flatten

/-! ## Message parsing (`xml.etree.ElementTree.fromstring`)

The protocol's messages are single self-closing tags
`<NAME ATTR="VALUE" ... />`.  `fromstring` is modelled on exactly that
grammar (tag name, ordered attribute list, duplicate attribute names
rejected, as the real parser does); any other input is a parse error
(`none`), modelling the `xml.etree` ParseError raised at source line 245. -/

/-- A parsed protocol message: tag name plus ordered attribute list,
mirroring `thisXML.tag` / `thisXML.attrib` / `thisXML.keys()`. -/
structure XMLElem where
  tag : List Char
  attrib : List (List Char × List Char)
deriving DecidableEq

/-- Characters accepted in tag and attribute names. -/
def isNameChar (c : Char) : Bool :=
  c.isAlpha || c.isDigit || c == '_'

/-- Parse the attribute list up to the closing token, fuelled by the input
length.  Accepts `ATTR="VALUE"` pairs separated by spaces and terminated by
the self-closing bracket; duplicate attribute names are a parse error. -/
def parseAttrs : Nat → List Char → Option (List (List Char × List Char) × List Char)
  | 0, _ => none
  | fuel + 1, s =>
    let s1 := s.dropWhile (fun c => c == ' ')
    match s1 with
    | '/' :: '>' :: rest => some ([], rest)
    | _ =>
      let name := s1.takeWhile isNameChar
      let s2 := s1.dropWhile isNameChar
      if name.isEmpty then none
      else
        match s2 with
        | '=' :: '"' :: s3 =>
          let v := s3.takeWhile (fun c => c != '"')
          match s3.dropWhile (fun c => c != '"') with
          | '"' :: s4 =>
            match parseAttrs fuel s4 with
            | some (attrs, rest) =>
              if (attrs.map Prod.fst).contains name then none
              else some ((name, v) :: attrs, rest)
            | none => none
          | _ => none
        | _ => none

/-- Model of `xmlObject.fromstring` on the protocol's message grammar. -/
def fromstring (s : List Char) : Option XMLElem :=
  match s with
  | '<' :: r =>
    let tag := r.takeWhile isNameChar
    let r1 := r.dropWhile isNameChar
    if tag.isEmpty then none
    else
      match parseAttrs (r1.length + 1) r1 with
      | some (attrs, rest) =>
        if rest.all (fun c => c == ' ') then some ⟨tag, attrs⟩ else none
      | none => none
  | _ => none

/-! ## Message Interpreter state (`parse_XML`, source lines 232-290) -/

/-- Protocol string constants used by `parse_XML`. -/
def ID : List Char := chars "ID"

def CALIB_RESULT : List Char := chars "CALIB_RESULT"

def CAL : List Char := chars "CAL"

def REC : List Char := chars "REC"

/-- The command sent at source line 263 upon a calibration result. -/
def CALIBRATE_HIDE : List Char := chars "<SET ID=\"CALIBRATE_SHOW\" STATE=\"0\" />"

/-- Python `dict[key]` lookup over the ordered attribute list (attribute
names are unique by construction of `fromstring`). -/
def alookup (k : List Char) : List (List Char × List Char) → Option (List Char)
  | [] => none
  | (k', v) :: rest => if k' = k then some v else alookup k rest

/-- `key + ","` for each element, concatenated: one CSV row as written by
the `for key in keys: ...write(key + ",")` loops. -/
def commaJoin (xs : List (List Char)) : List Char :=
  (xs.map (fun x => x ++ [','])).flatten

/-- The module's mutable state: the global flags `calibrated` and
`keys_received`, the three output sinks (each as the list of lines written
so far), the commands transmitted with `tx`, and the lifecycle booleans
(file handles open, socket connected, worker thread running). -/
structure ETState where
  calibrated : Bool
  keys_received : Bool
  xmlOut : List (List Char)
  calOut : List (List Char)
  recOut : List (List Char)
  sent : List (List Char)
  recordOpen : Bool
  calOpen : Bool
  xmlOpen : Bool
  connOpen : Bool
  workerRunning : Bool
deriving DecidableEq

/-- State at module import time: both flags `False`, nothing open. -/
def initState : ETState :=
  { calibrated := false, keys_received := false,
    xmlOut := [], calOut := [], recOut := [], sent := [],
    recordOpen := false, calOpen := false, xmlOpen := false,
    connOpen := false, workerRunning := false }

/-- Source lines 261-264: if `"ID" in keys` and `dict['ID'] == "CALIB_RESULT"`,
transmit the hide-overlay command and set `calibrated = True`.  Note the
source does not test whether `calibrated` is already `True`. -/
def calibStep (s : ETState) (e : XMLElem) : ETState :=
  match alookup ID e.attrib with
  | some v =>
    if v = CALIB_RESULT then
      { s with sent := s.sent ++ [CALIBRATE_HIDE], calibrated := true }
    else s
  | none => s

/-- Source lines 269-276: a `CAL` tag writes a comma-joined key row and a
comma-joined value row to the calibration sink. -/
def calStep (s : ETState) (e : XMLElem) : ETState :=
  if e.tag = CAL then
    { s with calOut := s.calOut ++ [commaJoin (e.attrib.map Prod.fst),
                                    commaJoin (e.attrib.map Prod.snd)] }
  else s

/-- Source lines 280-290: once `calibrated`, a `REC` tag writes a key row
(only when `keys_received` is still false) and a value row to the record
sink.  `keys_received = True` sits *inside* the `for key in keys` loop
(line 285), so it is set only when the attribute list is non-empty. -/
def recStep (s : ETState) (e : XMLElem) : ETState :=
  if s.calibrated then
    if e.tag = REC then
      if s.keys_received then
        { s with recOut := s.recOut ++ [commaJoin (e.attrib.map Prod.snd)] }
      else
        { s with recOut := s.recOut ++ [commaJoin (e.attrib.map Prod.fst),
                                        commaJoin (e.attrib.map Prod.snd)],
                 keys_received := !(e.attrib.map Prod.fst).isEmpty }
    else s
  else s

/-- Interpret one buffered message (the body of the `for XML in fill_buffer()`
loop, source lines 238-290): first the raw line is written to the XML sink
(lines 240-241), then the line is parsed — an unparseable line raises
ParseError there, modelled as `Except.error` carrying the state at the
moment of the crash — then the calibration, `CAL` and `REC` blocks run. -/
def processMsg (s : ETState) (xml : List Char) : Except ETState ETState :=
  let s0 := { s with xmlOut := s.xmlOut ++ [xml] }
  match fromstring xml with
  | none => Except.error s0
  | some e => Except.ok (recStep (calStep (calibStep s0 e) e) e)

/-- The state `processMsg` leaves behind, whether it returned or crashed. -/
def stepState (s : ETState) (xml : List Char) : ETState :=
  match processMsg s xml with
  | Except.ok t => t
  | Except.error t => t

/-- One `parse_XML` pass over a buffered list of messages.  An unparseable
message aborts the pass (and, since `WorkerThread.run` has no handler, the
worker loop) with the state reached so far. -/
def parse_XML (s : ETState) : List (List Char) → Except ETState ETState
  | [] => Except.ok s
  | m :: ms =>
    match processMsg s m with
    | Except.ok t => parse_XML t ms
    | Except.error t => Except.error t

/-- Final state of a `parse_XML` pass, whether it returned or crashed. -/
def runState (s : ETState) (ms : List (List Char)) : ETState :=
  match parse_XML s ms with
  | Except.ok t => t
  | Except.error t => t

/-- Project the crash state out of a `parse_XML` result. -/
def errState : Except ETState ETState → Option ETState
  | Except.error t => some t
  | Except.ok _ => none

/-- Does this message parse with attribute `ID` equal to `CALIB_RESULT`? -/
def isCalibResult (m : List Char) : Bool :=
  match fromstring m with
  | some e =>
    match alookup ID e.attrib with
    | some v => decide (v = CALIB_RESULT)
    | none => false
  | none => false

/-! ## Session lifecycle (source lines 378-411) -/

/-- The eleven enable commands transmitted by the server-initialisation
helper (source lines 152-162). -/
def enableCommands : List (List Char) :=
  [chars "<SET ID=\"ENABLE_SEND_DATA\" STATE=\"1\" />",
   chars "<SET ID=\"ENABLE_SEND_COUNTER\" STATE=\"1\" />",
   chars "<SET ID=\"ENABLE_SEND_EYE_LEFT\" STATE=\"1\" />",
   chars "<SET ID=\"ENABLE_SEND_EYE_RIGHT\" STATE=\"1\" />",
   chars "<SET ID=\"ENABLE_SEND_POG_LEFT\" STATE=\"1\" />",
   chars "<SET ID=\"ENABLE_SEND_POG_RIGHT\" STATE=\"1\" />",
   chars "<SET ID=\"ENABLE_SEND_POG_BEST\" STATE=\"1\" />",
   chars "<SET ID=\"ENABLE_SEND_PUPIL_LEFT\" STATE=\"1\" />",
   chars "<SET ID=\"ENABLE_SEND_PUPIL_RIGHT\" STATE=\"1\" />",
   chars "<SET ID=\"ENABLE_SEND_POG_FIX\" STATE=\"1\" />",
   chars "<SET ID=\"ENABLE_SEND_TIME\" STATE=\"1\" />"]

/-- The two commands transmitted by `perform_calibration` (lines 308-309). -/
def calibrationCommands : List (List Char) :=
  [chars "<SET ID=\"CALIBRATE_SHOW\" STATE=\"1\"  />",
   chars "<SET ID=\"CALIBRATE_START\" STATE=\"1\" />"]

/-- `start_eyetracking` (source lines 378-395), successful-connect path:
opens the three sinks in write mode (truncating them), connects, transmits
the enable commands, starts the worker, transmits the calibration commands.
It touches neither `calibrated` nor `keys_received`. -/
def start_eyetracking (s : ETState) : ETState :=
  let s1 := { s  with recordOpen := true, recOut := [] }
  let s2 := { s1 with calOpen := true, calOut := [] }
  let s3 := { s2 with xmlOpen := true, xmlOut := [] }
  let s4 := { s3 with connOpen := true }
  let s5 := { s4 with sent := s4.sent ++ enableCommands }
  let s6 := { s5 with workerRunning := true }
  { s6 with sent := s6.sent ++ calibrationCommands }

/-- `stop_eyetracking` (source lines 398-411): sets `calibrated = False`,
stops the worker and replaces it with a fresh one, disconnects, closes
`record_output`, closes `calibration_output` — and then (line 410) closes
`calibration_output` a second time instead of `XML_output`, so the XML sink
is never closed.  `keys_received` is never reset. -/
def stop_eyetracking (s : ETState) : ETState :=
  let s1 := { s  with calibrated := false }
  let s2 := { s1 with workerRunning := false }
  let s3 := { s2 with connOpen := false }
  let s4 := { s3 with recordOpen := false }
  let s5 := { s4 with calOpen := false }
  { s5 with calOpen := false }

/-! ## Worker shared-flag accesses (`WorkerThread`, source lines 333-358)

The claim about the stop flag concerns which of the accesses to the shared
`is_running` variable are performed while holding `self.lock`.  The two
methods are embedded as the ordered list of their `is_running` accesses,
each annotated with whether the source acquires the lock around it. -/

/-- A read or a write of the shared `is_running` flag. -/
inductive AccessKind
  | read
  | write
deriving DecidableEq

/-- One access to `is_running`, with its lock status. -/
structure FlagAccess where
  op : AccessKind
  underLock : Bool
deriving DecidableEq

/-- `stop_running` (lines 339-342): acquire, write `False`, release. -/
def stop_running_accesses : List FlagAccess :=
  [⟨AccessKind.write, true⟩]

/-- `run` (lines 345-358): the initialisation `self.is_running = True`
(line 348) happens *before* any `self.lock.acquire()`, then each loop
iteration reads the flag under the lock (lines 351-352). -/
def run_accesses : List FlagAccess :=
  [⟨AccessKind.write, false⟩, ⟨AccessKind.read, true⟩]

/-! ## Concrete example inputs used by counterexamples and witnesses -/

/-- A calibration-result notification, as in the spec's end-to-end example. -/
def calibMsg : List Char := chars "<CAL ID=\"CALIB_RESULT\" />"

/-- A telemetry record with two attributes. -/
def recMsg : List Char := chars "<REC FPOGX=\"0.4\" FPOGY=\"0.6\" />"

/-- The parse of `recMsg`. -/
def recElem : XMLElem :=
  ⟨chars "REC", [(chars "FPOGX", chars "0.4"), (chars "FPOGY", chars "0.6")]⟩

/-- A telemetry record carrying no attributes at all. -/
def emptyRec : List Char := chars "<REC />"

/-- A telemetry record that itself carries the calibration-result marker. -/
def recCalibMsg : List Char := chars "<REC ID=\"CALIB_RESULT\" />"

/-- State after interpreting one calibration-result message: `calibrated`
is true, `keys_received` still false. -/
def afterCalib : ETState := runState initState [calibMsg]

/-- State after a calibration result and one two-attribute record:
`calibrated` and `keys_received` both true. -/
def afterFirstRec : ETState := runState initState [calibMsg, recMsg]

/-- Three messages whose middle element does not parse. -/
def badPassMsgs : List (List Char) :=
  [chars "<CAL A=\"1\" />", chars "oops", chars "<CAL B=\"2\" />"]

/-! ## Interpreter step lemmas -/

theorem isCalibResult_of_fromstring (m : List Char) (e : XMLElem)
    (h : fromstring m = some e) :
    isCalibResult m = decide (alookup ID e.attrib = some CALIB_RESULT) := by
  unfold isCalibResult
  rw [h]
  cases ha : alookup ID e.attrib with
  | none => simp [ha]
  | some v => simp [ha]

theorem isCalibResult_of_none (m : List Char) (h : fromstring m = none) :
    isCalibResult m = false := by
  unfold isCalibResult
  rw [h]

theorem calibStep_calibrated (s : ETState) (e : XMLElem) :
    (calibStep s e).calibrated
      = (s.calibrated || decide (alookup ID e.attrib = some CALIB_RESULT)) := by
  unfold calibStep
  cases ha : alookup ID e.attrib with
  | none => simp
  | some v =>
    by_cases hv : v = CALIB_RESULT <;> simp [hv]

theorem calibStep_sent (s : ETState) (e : XMLElem) :
    (calibStep s e).sent
      = s.sent ++ (if alookup ID e.attrib = some CALIB_RESULT then [CALIBRATE_HIDE] else []) := by
  unfold calibStep
  cases ha : alookup ID e.attrib with
  | none => simp
  | some v =>
    by_cases hv : v = CALIB_RESULT <;> simp [hv]

theorem calibStep_keys_received (s : ETState) (e : XMLElem) :
    (calibStep s e).keys_received = s.keys_received := by
  unfold calibStep
  cases alookup ID e.attrib with
  | none => rfl
  | some v => by_cases hv : v = CALIB_RESULT <;> simp [hv]

theorem calibStep_recOut (s : ETState) (e : XMLElem) :
    (calibStep s e).recOut = s.recOut := by
  unfold calibStep
  cases alookup ID e.attrib with
  | none => rfl
  | some v => by_cases hv : v = CALIB_RESULT <;> simp [hv]

theorem calStep_calibrated (s : ETState) (e : XMLElem) :
    (calStep s e).calibrated = s.calibrated := by
  unfold calStep; split <;> rfl

theorem calStep_keys_received (s : ETState) (e : XMLElem) :
    (calStep s e).keys_received = s.keys_received := by
  unfold calStep; split <;> rfl

theorem calStep_recOut (s : ETState) (e : XMLElem) :
    (calStep s e).recOut = s.recOut := by
  unfold calStep; split <;> rfl

theorem calStep_sent (s : ETState) (e : XMLElem) :
    (calStep s e).sent = s.sent := by
  unfold calStep; split <;> rfl

theorem recStep_calibrated (s : ETState) (e : XMLElem) :
    (recStep s e).calibrated = s.calibrated := by
  unfold recStep
  repeat' split
  all_goals rfl

theorem recStep_sent (s : ETState) (e : XMLElem) :
    (recStep s e).sent = s.sent := by
  unfold recStep
  repeat' split
  all_goals rfl

theorem recStep_of_not_calibrated (s : ETState) (e : XMLElem)
    (h : s.calibrated = false) : recStep s e = s := by
  unfold recStep
  rw [h]
  rfl

theorem recStep_keys_received_mono (s : ETState) (e : XMLElem)
    (h : s.keys_received = true) : (recStep s e).keys_received = true := by
  unfold recStep
  repeat' split
  all_goals simp_all

theorem recStep_rec (s : ETState) (e : XMLElem) (hc : s.calibrated = true)
    (ht : e.tag = REC) (ha : e.attrib ≠ []) :
    (recStep s e).recOut
      = s.recOut ++ (if s.keys_received then [commaJoin (e.attrib.map Prod.snd)]
                     else [commaJoin (e.attrib.map Prod.fst),
                           commaJoin (e.attrib.map Prod.snd)])
    ∧ (recStep s e).keys_received = true := by
  unfold recStep
  rw [hc, ht]
  have hREC : (REC = CAL) = False := by simp [REC, CAL, chars]
  by_cases hk : s.keys_received = true
  · simp [hk]
  · have hk' : s.keys_received = false := by
      cases h : s.keys_received
      · rfl
      · exact absurd h hk
    simp [hk', List.isEmpty_iff, ha]

/-- `processMsg` succeeds exactly when `fromstring` does, and its result is
the composite of the three blocks. -/
theorem processMsg_ok (s t : ETState) (m : List Char)
    (h : processMsg s m = Except.ok t) :
    ∃ e, fromstring m = some e
      ∧ t = recStep (calStep (calibStep { s with xmlOut := s.xmlOut ++ [m] } e) e) e := by
  unfold processMsg at h
  cases hf : fromstring m with
  | none => rw [hf] at h; exact absurd h (by simp)
  | some e =>
    rw [hf] at h
    simp only [Except.ok.injEq] at h
    exact ⟨e, rfl, h.symm⟩

theorem stepState_calibrated (s : ETState) (m : List Char) :
    (stepState s m).calibrated = (s.calibrated || isCalibResult m) := by
  unfold stepState processMsg
  cases hf : fromstring m with
  | none => simp [isCalibResult_of_none m hf]
  | some e =>
    simp only
    rw [recStep_calibrated, calStep_calibrated, calibStep_calibrated,
        isCalibResult_of_fromstring m e hf]

theorem stepState_keys_received_mono (s : ETState) (m : List Char)
    (h : s.keys_received = true) : (stepState s m).keys_received = true := by
  unfold stepState processMsg
  cases hf : fromstring m with
  | none => simpa using h
  | some e =>
    simp only
    apply recStep_keys_received_mono
    rw [calStep_keys_received, calibStep_keys_received]
    exact h

theorem processMsg_ok_sent (s t : ETState) (m : List Char)
    (h : processMsg s m = Except.ok t) :
    t.sent = s.sent ++ (if isCalibResult m then [CALIBRATE_HIDE] else []) := by
  obtain ⟨e, hf, ht⟩ := processMsg_ok s t m h
  subst ht
  rw [recStep_sent, calStep_sent, calibStep_sent,
      isCalibResult_of_fromstring m e hf]
  by_cases hc : alookup ID e.attrib = some CALIB_RESULT <;> simp [hc]

theorem processMsg_ok_calibrated (s t : ETState) (m : List Char)
    (h : processMsg s m = Except.ok t) :
    t.calibrated = (s.calibrated || isCalibResult m) := by
  have hs : stepState s m = t := by unfold stepState; rw [h]
  rw [← hs, stepState_calibrated]

/-! ## Reassembler lemmas -/

theorem splitNl_ne_nil (s : List Char) : splitNl s ≠ [] := by
  cases s with
  | nil => simp [splitNl]
  | cons c cs =>
    unfold splitNl
    by_cases h : c = '\n'
    · simp [h]
    · simp only [if_neg h]
      cases splitNl cs <;> simp

theorem splitNl_no_nl (s : List Char) (h : '\n' ∉ s) : splitNl s = [s] := by
  induction s with
  | nil => rfl
  | cons c cs ih =>
    have hc : c ≠ '\n' := fun hcc => h (hcc ▸ List.mem_cons_self c cs)
    have hcs : '\n' ∉ cs := fun hm => h (List.mem_cons_of_mem c hm)
    unfold splitNl
    rw [if_neg hc, ih hcs]

theorem splitNl_append (p c f : List Char) (fs : List (List Char))
    (hp : '\n' ∉ p) (hc : splitNl c = f :: fs) :
    splitNl (p ++ c) = (p ++ f) :: fs := by
  induction p with
  | nil => simpa using hc
  | cons a p' ih =>
    have ha : a ≠ '\n' := fun hx => hp (hx ▸ List.mem_cons_self a p')
    have hp' : '\n' ∉ p' := fun hm => hp (List.mem_cons_of_mem a hm)
    simp only [List.cons_append]
    unfold splitNl
    rw [if_neg ha, ih hp']

theorem splitNl_length_two (s : List Char) (h : s.getLast? = some '\n') :
    2 ≤ (splitNl s).length := by
  induction s with
  | nil => simp at h
  | cons c cs ih =>
    unfold splitNl
    by_cases hc : c = '\n'
    · rw [if_pos hc]
      have h1 : 0 < (splitNl cs).length := List.length_pos.mpr (splitNl_ne_nil cs)
      simp only [List.length_cons]
      omega
    · have hcs : cs ≠ [] := by
        intro hnil
        subst hnil
        simp [List.getLast?] at h
        exact hc h
      rw [if_neg hc]
      have h2 : (c :: cs).getLast? = cs.getLast? := by
        cases cs with
        | nil => exact absurd rfl hcs
        | cons d ds => exact List.getLast?_cons_cons
      rw [h2] at h
      have h3 := ih h
      cases hsc : splitNl cs with
      | nil => exact absurd hsc (splitNl_ne_nil cs)
      | cons f fs =>
        rw [hsc] at h3
        simp only [List.length_cons] at h3 ⊢
        omega

theorem splitlines_ne_nil (s : List Char) (h : s ≠ []) : splitlines s ≠ [] := by
  unfold splitlines
  rw [if_neg h]
  by_cases hl : s.getLast? = some '\n'
  · rw [if_pos hl]
    have h2 := splitNl_length_two s hl
    intro hx
    have := congrArg List.length hx
    rw [List.length_dropLast] at this
    simp at this
    omega
  · rw [if_neg hl]
    exact splitNl_ne_nil s

theorem splitlines_cases (c : List Char) (h : c ≠ []) :
    ∃ f fs, splitlines c = f :: fs := by
  cases hc : splitlines c with
  | nil => exact absurd hc (splitlines_ne_nil c h)
  | cons f fs => exact ⟨f, fs, rfl⟩

theorem splitlines_no_nl (s : List Char) (h : '\n' ∉ s) (hs : s ≠ []) :
    splitlines s = [s] := by
  unfold splitlines
  rw [if_neg hs]
  have hl : s.getLast? ≠ some '\n' := by
    intro hx
    obtain ⟨hne, hxe⟩ := List.mem_getLast?_eq_getLast (Option.mem_def.mpr hx)
    exact h (hxe ▸ List.getLast_mem hne)
  rw [if_neg hl]
  exact splitNl_no_nl s h

theorem splitlines_append (p c f : List Char) (fs : List (List Char))
    (hp : '\n' ∉ p) (hc : splitlines c = f :: fs) :
    splitlines (p ++ c) = (p ++ f) :: fs := by
  by_cases hpnil : p = []
  · subst hpnil; simpa using hc
  have hcnil : c ≠ [] := by
    intro hx
    rw [hx] at hc
    simp [splitlines] at hc
  have hpc : p ++ c ≠ [] := by simp [hcnil]
  have hlast : (p ++ c).getLast? = c.getLast? :=
    List.getLast?_append_of_ne_nil p hcnil
  unfold splitlines at hc ⊢
  rw [if_neg hcnil] at hc
  rw [if_neg hpc, hlast]
  by_cases hnl : c.getLast? = some '\n'
  · rw [if_pos hnl] at hc
    rw [if_pos hnl]
    have hne := splitNl_ne_nil c
    obtain ⟨x, hx⟩ : ∃ x, (splitNl c).getLast? = some x :=
      ⟨(splitNl c).getLast hne, List.getLast?_eq_getLast_of_ne_nil hne⟩
    have hxx := List.dropLast_append_getLast? x (Option.mem_def.mpr hx)
    rw [hc] at hxx
    have hsplit : splitNl c = f :: (fs ++ [x]) := by
      rw [← hxx]
      simp
    rw [splitNl_append p c f (fs ++ [x]) hp hsplit,
        show (p ++ f) :: (fs ++ [x]) = ((p ++ f) :: fs) ++ [x] by simp]
    exact List.dropLast_concat
  · rw [if_neg hnl] at hc
    rw [if_neg hnl]
    exact splitNl_append p c f fs hp hc

theorem splitlines_line (m c : List Char) (hm : '\n' ∉ m) :
    splitlines (m ++ '\n' :: c) = m :: splitlines c := by
  have h1 : splitNl ('\n' :: c) = [] :: splitNl c := by
    rw [splitNl, if_pos rfl]
  have h2 : splitNl (m ++ '\n' :: c) = (m ++ []) :: splitNl c :=
    splitNl_append m ('\n' :: c) [] (splitNl c) hm h1
  rw [List.append_nil] at h2
  have hne : m ++ '\n' :: c ≠ [] := by simp
  by_cases hc : c = []
  · subst hc
    have hl : (m ++ '\n' :: ([] : List Char)).getLast? = some '\n' :=
      List.getLast?_append_of_ne_nil m (by simp)
    rw [splitlines, if_neg hne, if_pos hl, h2,
        show splitlines ([] : List Char) = [] from rfl]
    rfl
  · have hl : (m ++ '\n' :: c).getLast? = c.getLast? := by
      rw [List.getLast?_append_of_ne_nil m (by simp),
          show ('\n' :: c) = ['\n'] ++ c by rfl,
          List.getLast?_append_of_ne_nil ['\n'] hc]
    by_cases hnl : c.getLast? = some '\n'
    · rw [splitlines, if_neg hne, hl, if_pos hnl, h2, splitlines,
          if_neg hc, if_pos hnl]
      cases hsc : splitNl c with
      | nil => exact absurd hsc (splitNl_ne_nil c)
      | cons x xs => exact List.dropLast_cons₂ ..
    · rw [splitlines, if_neg hne, hl, if_neg hnl, h2, splitlines,
          if_neg hc, if_neg hnl]

/-! ## Buffer-loop lemmas -/

theorem bufferLoop_nil (buf ov : List (List Char)) :
    bufferLoop buf ov [] = some (buf, ov) := rfl

theorem bufferLoop_cons_none (buf ov : List (List Char)) (l : List Char)
    (ls : List (List Char)) (hl : l.getLast? = none) :
    bufferLoop buf ov (l :: ls) = none := by
  conv_lhs => rw [bufferLoop]
  rw [hl]

theorem bufferLoop_cons_gt (buf ov : List (List Char)) (l : List Char)
    (ls : List (List Char)) (hl : l.getLast? = some '>') :
    bufferLoop buf ov (l :: ls) = bufferLoop (buf ++ [l]) ov ls := by
  conv_lhs => rw [bufferLoop]
  rw [hl]
  simp

theorem bufferLoop_cons_ng (buf ov : List (List Char)) (l : List Char)
    (ls : List (List Char)) (c : Char) (hl : l.getLast? = some c)
    (hc : c ≠ '>') :
    bufferLoop buf ov (l :: ls) = bufferLoop buf [l] ls := by
  conv_lhs => rw [bufferLoop]
  rw [hl]
  simp [hc]

theorem bufferLoop_acc (ls : List (List Char)) :
    ∀ buf ov, bufferLoop buf ov ls
      = Option.map (fun r => (buf ++ r.1, r.2)) (bufferLoop [] ov ls) := by
  induction ls with
  | nil => intro buf ov; simp [bufferLoop_nil]
  | cons l ls ih =>
    intro buf ov
    cases hl : l.getLast? with
    | none => rw [bufferLoop_cons_none buf ov l ls hl,
                  bufferLoop_cons_none [] ov l ls hl]; rfl
    | some c =>
      by_cases hc : c = '>'
      · subst hc
        rw [bufferLoop_cons_gt buf ov l ls hl, bufferLoop_cons_gt [] ov l ls hl,
            ih (buf ++ [l]) ov, ih ([] ++ [l]) ov]
        cases bufferLoop [] ov ls <;> simp
      · rw [bufferLoop_cons_ng buf ov l ls c hl hc,
            bufferLoop_cons_ng [] ov l ls c hl hc, ih buf [l]]

theorem bufferLoop_mem_gt (ls : List (List Char)) :
    ∀ buf ov b o, bufferLoop buf ov ls = some (b, o) →
      ∀ x ∈ b, x ∈ buf ∨ x.getLast? = some '>' := by
  induction ls with
  | nil =>
    intro buf ov b o h x hx
    rw [bufferLoop_nil] at h
    simp only [Option.some.injEq, Prod.mk.injEq] at h
    exact Or.inl (h.1 ▸ hx)
  | cons l ls ih =>
    intro buf ov b o h x hx
    cases hl : l.getLast? with
    | none => rw [bufferLoop_cons_none buf ov l ls hl] at h; exact absurd h (by simp)
    | some c =>
      by_cases hc : c = '>'
      · subst hc
        rw [bufferLoop_cons_gt buf ov l ls hl] at h
        rcases ih (buf ++ [l]) ov b o h x hx with hin | hgt
        · rcases List.mem_append.mp hin with h1 | h2
          · exact Or.inl h1
          · right
            simp only [List.mem_singleton] at h2
            rw [h2, hl]
        · exact Or.inr hgt
      · rw [bufferLoop_cons_ng buf ov l ls c hl hc] at h
        exact ih buf [l] b o h x hx

theorem bufferLoop_last_ov (ls : List (List Char)) :
    ∀ buf ov b o t, bufferLoop buf ov ls = some (b, o) →
      ls.getLast? = some t → t.getLast? ≠ some '>' → o = [t] := by
  induction ls with
  | nil => intro buf ov b o t _ hlast _; simp at hlast
  | cons l ls ih =>
    intro buf ov b o t h hlast hnt
    cases hls : ls with
    | nil =>
      subst hls
      have htl : t = l := by simpa [List.getLast?] using hlast.symm
      subst htl
      cases hl : t.getLast? with
      | none => rw [bufferLoop_cons_none buf ov t [] hl] at h; exact absurd h (by simp)
      | some c =>
        by_cases hc : c = '>'
        · exact absurd (hc ▸ hl) hnt
        · rw [bufferLoop_cons_ng buf ov t [] c hl hc, bufferLoop_nil] at h
          simp only [Option.some.injEq, Prod.mk.injEq] at h
          exact h.2.symm
    | cons l2 ls2 =>
      rw [hls] at h hlast
      rw [List.getLast?_cons_cons] at hlast
      cases hl : l.getLast? with
      | none =>
        rw [bufferLoop_cons_none buf ov l (l2 :: ls2) hl] at h
        exact absurd h (by simp)
      | some c =>
        by_cases hc : c = '>'
        · subst hc
          rw [bufferLoop_cons_gt buf ov l (l2 :: ls2) hl] at h
          exact ih (buf ++ [l]) ov b o t (hls ▸ h) (hls ▸ hlast) hnt
        · rw [bufferLoop_cons_ng buf ov l (l2 :: ls2) c hl hc] at h
          exact ih buf [l] b o t (hls ▸ h) (hls ▸ hlast) hnt

/-! ## Stream and message lemmas -/

theorem stream_nil : stream [] = [] := rfl

theorem stream_cons (m : List Char) (ms : List (List Char)) :
    stream (m :: ms) = m ++ '\n' :: stream ms := by
  simp [stream]

theorem stream_eq_nil (ms : List (List Char)) (h : stream ms = []) : ms = [] := by
  cases ms with
  | nil => rfl
  | cons m ms =>
    rw [stream_cons] at h
    rcases List.append_eq_nil.mp h with ⟨_, h2⟩
    exact absurd h2 (by simp)

theorem msgOk_prefix_no_nl (m c q : List Char) (h : MsgOk m)
    (he : c ++ q = m) : '\n' ∉ c := by
  intro hx
  exact h.2.1 (he ▸ List.mem_append_left q hx)

theorem msgOk_prefix_last (m c q : List Char) (h : MsgOk m)
    (he : c ++ q = m) (hq : q ≠ []) (hc : c ≠ []) :
    ∃ ch, c.getLast? = some ch ∧ ch ≠ '>' := by
  refine ⟨c.getLast hc, List.getLast?_eq_getLast_of_ne_nil hc, ?_⟩
  intro hch
  have hdrop : m.dropLast = c ++ q.dropLast := by
    rw [← he, List.dropLast_append_of_ne_nil c hq]
  have hmem : '>' ∈ m.dropLast := by
    rw [hdrop]
    exact List.mem_append_left q.dropLast (hch ▸ List.getLast_mem hc)
  exact h.2.2.1 hmem

/-- Invariant tying together the `line_overflow` contents, the unread
remainder of the raw byte stream, and the sequence of well-formed messages
not yet emitted, at a chunk boundary.  `boundary`: exactly at the start of
a message (or the end of the stream).  `mid`: a proper non-empty prefix
`p` of the next message sits in the overflow.  `afterTerm`: the previous
message was fully read and emitted but its separator not yet consumed. -/
inductive BufInv : List (List Char) → List Char → List (List Char) → Prop
  | boundary (rest : List (List Char)) : BufInv [] (stream rest) rest
  | mid (p q : List Char) (rest' : List (List Char)) (hp : p ≠ []) (hq : q ≠ []) :
      BufInv [p] (q ++ '\n' :: stream rest') ((p ++ q) :: rest')
  | afterTerm (rest' : List (List Char)) : BufInv [] ('\n' :: stream rest') rest'

theorem fill_buffer_nil_ov (c : List Char) :
    fill_buffer [] c = bufferLoop [] [] (splitlines c) := rfl

theorem fill_buffer_cons_ov (o : List Char) (ov' : List (List Char))
    (c f : List Char) (fs : List (List Char)) (h : splitlines c = f :: fs) :
    fill_buffer (o :: ov') c = bufferLoop [] [] ((o ++ f) :: fs) := by
  unfold fill_buffer
  rw [h]

/-- Processing one non-empty chunk taken from the front of a well-formed
stream, starting at a message boundary: the loop emits exactly the
messages the chunk completes, and the final overflow/remainder pair again
satisfies the invariant. -/
theorem core_step :
    ∀ (rest : List (List Char)), (∀ m ∈ rest, MsgOk m) →
    ∀ (c R' : List Char), c ≠ [] → c ++ R' = stream rest →
    ∃ done rest₂ ov', bufferLoop [] [] (splitlines c) = some (done, ov')
      ∧ rest = done ++ rest₂ ∧ BufInv ov' R' rest₂ := by
  intro rest
  induction rest with
  | nil =>
    intro _ c R' hc hceq
    rw [stream_nil] at hceq
    exact absurd (List.append_eq_nil.mp hceq).1 hc
  | cons m rest₁ ih =>
    intro hms c R' hc hceq
    have hm : MsgOk m := hms m (List.mem_cons_self m rest₁)
    have hms₁ : ∀ x ∈ rest₁, MsgOk x := fun x hx => hms x (List.mem_cons_of_mem m hx)
    rw [stream_cons] at hceq
    have hceq' : c ++ R' = (m ++ ['\n']) ++ stream rest₁ := by
      rw [hceq]
      simp
    rcases List.append_eq_append_iff.mp hceq' with ⟨a', ha1, ha2⟩ | ⟨c', hc1, hc2⟩
    · -- the chunk ends inside `m ++ ['\n']`
      by_cases hanil : a' = []
      · -- c = m ++ ['\n'] : the chunk is exactly the first line
        subst hanil
        rw [List.append_nil] at ha1
        simp only [List.nil_append] at ha2
        have hcm : c = m ++ '\n' :: [] := by rw [← ha1]
        have hsl : splitlines c = [m] := by
          rw [hcm, splitlines_line m [] hm.2.1]
          rfl
        refine ⟨[m], rest₁, [], ?_, rfl, ha2 ▸ BufInv.boundary rest₁⟩
        rw [hsl, bufferLoop_cons_gt [] [] m [] hm.2.2.2, bufferLoop_nil]
        rfl
      · -- c is a proper prefix of `m ++ ['\n']`
        rcases List.append_eq_append_iff.mp ha1.symm with ⟨b, hb1, hb2⟩ | ⟨d, hd1, hd2⟩
        · -- m = c ++ b
          by_cases hbnil : b = []
          · -- c = m, the separator has not been read yet
            subst hbnil
            rw [List.append_nil] at hb1
            simp only [List.nil_append] at hb2
            have hsl : splitlines c = [c] :=
              splitlines_no_nl c (hb1 ▸ hm.2.1) hc
            refine ⟨[c], rest₁, [], ?_, by rw [hb1]; rfl, ?_⟩
            · rw [hsl, bufferLoop_cons_gt [] [] c [] (hb1 ▸ hm.2.2.2), bufferLoop_nil]
              rfl
            · rw [ha2, hb2]
              simp only [List.singleton_append]
              exact BufInv.afterTerm rest₁
          · -- c is a proper non-empty prefix of m: everything goes to overflow
            have hcnl : '\n' ∉ c := msgOk_prefix_no_nl m c b hm hb1.symm
            have hsl : splitlines c = [c] := splitlines_no_nl c hcnl hc
            obtain ⟨ch, hch, hchne⟩ := msgOk_prefix_last m c b hm hb1.symm hbnil hc
            refine ⟨[], (c ++ b) :: rest₁, [c], ?_, by rw [hb1]; rfl, ?_⟩
            · rw [hsl, bufferLoop_cons_ng [] [] c [] ch hch hchne, bufferLoop_nil]
            · rw [ha2, hb2, List.append_assoc]
              simp only [List.singleton_append]
              exact BufInv.mid c b rest₁ hc hbnil
        · -- c = m ++ d with ['\n'] = d ++ a' and a' ≠ [] forces d = []
          cases d with
          | cons x xs =>
            exfalso
            have htail := congrArg List.tail hd2
            simp only [List.cons_append, List.tail_cons] at htail
            exact hanil (List.append_eq_nil.mp htail.symm).2
          | nil =>
            rw [List.append_nil] at hd1
            simp only [List.nil_append] at hd2
            have hsl : splitlines c = [c] :=
              splitlines_no_nl c (hd1.symm ▸ hm.2.1) hc
            refine ⟨[c], rest₁, [], ?_, by rw [hd1]; rfl, ?_⟩
            · rw [hsl, bufferLoop_cons_gt [] [] c [] (hd1.symm ▸ hm.2.2.2), bufferLoop_nil]
              rfl
            · rw [ha2, ← hd2]
              simp only [List.singleton_append]
              exact BufInv.afterTerm rest₁
    · -- the chunk covers the whole first line and continues
      have hcc : c = m ++ '\n' :: c' := by
        rw [hc1]
        simp
      have hsl : splitlines c = m :: splitlines c' := by
        rw [hcc]
        exact splitlines_line m c' hm.2.1
      by_cases hc'nil : c' = []
      · subst hc'nil
        have hR : R' = stream rest₁ := by
          simpa using hc2.symm
        refine ⟨[m], rest₁, [], ?_, rfl, hR ▸ BufInv.boundary rest₁⟩
        rw [hsl, bufferLoop_cons_gt [] [] m (splitlines []) hm.2.2.2]
        rfl
      · obtain ⟨done₁, rest₂, ov', hbl, hrest, hinv⟩ :=
          ih hms₁ c' R' hc'nil hc2.symm
        refine ⟨m :: done₁, rest₂, ov', ?_, by rw [hrest]; rfl, hinv⟩
        rw [hsl, bufferLoop_cons_gt [] [] m (splitlines c') hm.2.2.2,
            bufferLoop_acc (splitlines c') ([] ++ [m]) [], hbl]
        rfl

theorem feedChunks_cons_eq (ov : List (List Char)) (ch : List Char)
    (cs : List (List Char)) (b ov1 rest : List (List Char))
    (h1 : fill_buffer ov ch = some (b, ov1))
    (h2 : feedChunks ov1 cs = some (rest, [])) :
    feedChunks ov (ch :: cs) = some (b ++ rest, []) := by
  have hstep : feedChunks ov (ch :: cs)
      = match feedChunks ov1 cs with
        | none => none
        | some (b2, ov2) => some (b ++ b2, ov2) := by
    conv_lhs => rw [feedChunks]
    rw [h1]
  rw [hstep, h2]

/-- Feeding every chunk of a decomposition of the unread remainder, from
any state satisfying the invariant, emits exactly the outstanding
messages and ends with an empty overflow — provided each chunk is
non-empty and does not begin with the separator. -/
theorem feed_inv :
    ∀ (chunks : List (List Char)) (ov : List (List Char)) (R : List Char)
      (rest : List (List Char)),
    BufInv ov R rest → (∀ m ∈ rest, MsgOk m) →
    (∀ ch ∈ chunks, ch ≠ [] ∧ ch.head? ≠ some '\n') →
    chunks.flatten = R →
    feedChunks ov chunks = some (rest, []) := by
  intro chunks
  induction chunks with
  | nil =>
    intro ov R rest hinv hms _ hflat
    cases hinv with
    | boundary rest =>
      have hrnil : rest = [] := stream_eq_nil rest (by simpa using hflat.symm)
      subst hrnil
      rfl
    | mid p q rest' hp hq =>
      exfalso
      have h : ([] : List Char) = q ++ '\n' :: stream rest' := hflat
      rcases List.append_eq_nil.mp h.symm with ⟨_, h2⟩
      exact absurd h2 (by simp)
    | afterTerm =>
      exfalso
      have h : ([] : List Char) = '\n' :: stream rest := hflat
      exact absurd h.symm (by simp)
  | cons ch chunks' ih =>
    intro ov R rest hinv hms hchunks hflat
    obtain ⟨hchne, hchnl⟩ := hchunks ch (List.mem_cons_self ch chunks')
    have hchunks' : ∀ c ∈ chunks', c ≠ [] ∧ c.head? ≠ some '\n' :=
      fun c hc => hchunks c (List.mem_cons_of_mem ch hc)
    have hflat' : ch ++ chunks'.flatten = R := by
      rw [← hflat]; rfl
    cases hinv with
    | afterTerm rest' =>
      exfalso
      cases ch with
      | nil => exact hchne rfl
      | cons x xs =>
        have : x = '\n' := by
          have := hflat'
          simp only [List.cons_append] at this
          exact (List.cons.injEq .. ▸ this).1
        exact hchnl (by rw [this]; rfl)
    | boundary rest =>
      obtain ⟨done, rest₂, ov', hbl, hrest, hinv'⟩ :=
        core_step rest hms ch chunks'.flatten hchne hflat'
      have hms₂ : ∀ m ∈ rest₂, MsgOk m :=
        fun m hm => hms m (hrest ▸ List.mem_append_right done hm)
      have hfeed' : feedChunks ov' chunks' = some (rest₂, []) :=
        ih ov' chunks'.flatten rest₂ hinv' hms₂ hchunks' rfl
      rw [feedChunks_cons_eq [] ch chunks' done ov' rest₂
            ((fill_buffer_nil_ov ch).trans hbl) hfeed', ← hrest]
    | mid p q rest' hp hq =>
      have hmok : MsgOk (p ++ q) := hms (p ++ q) (List.mem_cons_self ..)
      have hpnl : '\n' ∉ p := msgOk_prefix_no_nl (p ++ q) p q hmok rfl
      obtain ⟨f, fs, hsplit⟩ := splitlines_cases ch hchne
      have hpchne : p ++ ch ≠ [] := by simp [hchne]
      have hpcheq : (p ++ ch) ++ chunks'.flatten = stream ((p ++ q) :: rest') := by
        rw [List.append_assoc, hflat', stream_cons, List.append_assoc]
      obtain ⟨done, rest₂, ov', hbl, hrest, hinv'⟩ :=
        core_step ((p ++ q) :: rest') hms (p ++ ch) chunks'.flatten hpchne hpcheq
      have hms₂ : ∀ m ∈ rest₂, MsgOk m :=
        fun m hm => hms m (hrest ▸ List.mem_append_right done hm)
      have hfeed' : feedChunks ov' chunks' = some (rest₂, []) :=
        ih ov' chunks'.flatten rest₂ hinv' hms₂ hchunks' rfl
      have hfill : fill_buffer [p] ch = some (done, ov') := by
        rw [fill_buffer_cons_ov p [] ch f fs hsplit,
            ← splitlines_append p ch f fs hpnl hsplit]
        exact hbl
      rw [feedChunks_cons_eq [p] ch chunks' done ov' rest₂ hfill hfeed', ← hrest]

/-! ## Claim theorems for the Frame Reassembler -/

/-- C1 counterexample: the stream `"<a>\n<b>\n"` of the two well-formed
messages `<a>` and `<b>` is split at the byte offset between the first
terminator and its separator.  Feeding the two chunks crashes the second
`fill_buffer` pass (the chunk begins with the separator, producing an
empty fragment, and `line[-1]` raises IndexError), while feeding the
whole concatenation as one chunk yields both messages, so the two feeds
do not agree for this split. -/
theorem C1_counterexample :
    feedChunks [] [chars "<a>", chars "\n<b>\n"] = none
    ∧ feedChunks [] [chars "<a>\n<b>\n"]
        = some ([chars "<a>", chars "<b>"], []) := by
  constructor
  · decide
  · decide

/-- C1 amended: for every sequence of non-empty raw chunks, none of which
begins with the newline separator, whose concatenation is a well-formed
sequence of terminator-closed, newline-separated messages, feeding the
chunks one at a time through `fill_buffer` (threading `line_overflow`)
yields exactly the message sequence, with an empty final overflow — the
same result as feeding the full concatenation as one chunk. -/
theorem C1_reassembly_equivalence (ms chunks : List (List Char))
    (hmsg : ∀ m ∈ ms, MsgOk m)
    (hchunks : ∀ ch ∈ chunks, ch ≠ [] ∧ ch.head? ≠ some '\n')
    (hjoin : chunks.flatten = stream ms) :
    feedChunks [] chunks = some (ms, [])
    ∧ feedChunks [] [stream ms] = some (ms, []) := by
  refine ⟨feed_inv chunks [] (stream ms) ms (BufInv.boundary ms) hmsg hchunks hjoin, ?_⟩
  by_cases hms : ms = []
  · subst hms
    rfl
  · apply feed_inv [stream ms] [] (stream ms) ms (BufInv.boundary ms) hmsg ?_ (by simp)
    intro ch hch
    have hcheq : ch = stream ms := by simpa using hch
    subst hcheq
    cases hcs : ms with
    | nil => exact absurd hcs hms
    | cons m ms' =>
      have hmok : MsgOk m := hmsg m (hcs ▸ List.mem_cons_self m ms')
      subst hcs
      constructor
      · rw [stream_cons]
        intro hx
        rcases List.append_eq_nil.mp hx with ⟨_, h2⟩
        exact absurd h2 (by simp)
      · rw [stream_cons]
        cases hmc : m with
        | nil => exact absurd hmc hmok.1
        | cons a m' =>
          have ha : a ≠ '\n' := by
            intro hx
            exact hmok.2.1 (hmc ▸ hx ▸ List.mem_cons_self a m')
          simp [ha]

/-- C1 witness: the two messages `<a>`, `<b>` split as
`["<a>\n<", "b>\n"]` (mid-message boundary) reassemble to exactly the two
messages, as does the whole stream fed at once. -/
theorem C1_witness :
    feedChunks [] [chars "<a>\n<", chars "b>\n"]
      = some ([chars "<a>", chars "<b>"], [])
    ∧ feedChunks [] [stream [chars "<a>", chars "<b>"]]
      = some ([chars "<a>", chars "<b>"], []) :=
  C1_reassembly_equivalence [chars "<a>", chars "<b>"]
    [chars "<a>\n<", chars "b>\n"] (by decide) (by decide) (by decide)

/-- C7: when a completed `fill_buffer` pass ends with a newline-split
fragment `t` that does not end in the terminator, `t` is emitted zero
times in that pass (everything emitted ends in `'>'`) and becomes the new
`line_overflow`; on the next call the overflow is prepended to the first
fragment and cleared, and if the joined line now ends in the terminator it
is emitted — first, hence exactly once for the join. -/
theorem C7_tail_containment (c t : List Char) (buf ov : List (List Char))
    (hlast : (splitlines c).getLast? = some t)
    (ht : t.getLast? ≠ some '>')
    (hrun : fill_buffer [] c = some (buf, ov)) :
    ov = [t] ∧ t ∉ buf
    ∧ ∀ c2 f fs, splitlines c2 = f :: fs →
        fill_buffer [t] c2 = bufferLoop [] [] ((t ++ f) :: fs)
        ∧ ((t ++ f).getLast? = some '>' →
            ∀ b2 o2, fill_buffer [t] c2 = some (b2, o2) →
              ∃ r, b2 = (t ++ f) :: r) := by
  rw [fill_buffer_nil_ov] at hrun
  refine ⟨bufferLoop_last_ov (splitlines c) [] [] buf ov t hrun hlast ht, ?_, ?_⟩
  · intro hmem
    rcases bufferLoop_mem_gt (splitlines c) [] [] buf ov hrun t hmem with hin | hgt
    · simp at hin
    · exact ht hgt
  · intro c2 f fs hsplit
    have heq : fill_buffer [t] c2 = bufferLoop [] [] ((t ++ f) :: fs) :=
      fill_buffer_cons_ov t [] c2 f fs hsplit
    refine ⟨heq, ?_⟩
    intro hgt b2 o2 hrun2
    rw [heq, bufferLoop_cons_gt [] [] (t ++ f) fs hgt,
        bufferLoop_acc fs ([] ++ [t ++ f]) []] at hrun2
    cases hbase : bufferLoop [] [] fs with
    | none => rw [hbase] at hrun2; exact absurd hrun2 (by simp)
    | some r =>
      rw [hbase] at hrun2
      simp only [Option.map_some', Option.some.injEq, Prod.mk.injEq] at hrun2
      exact ⟨r.1, by rw [← hrun2.1]; simp⟩

/-- C7 witness: chunk `"<a>\n<b"` leaves `"<b"` in the overflow without
emitting it; the follow-up chunk `">\n"` completes it, and the joined
message `"<b>"` is emitted first. -/
theorem C7_witness :
    (fill_buffer [] (chars "<a>\n<b") = some ([chars "<a>"], [chars "<b"]))
    ∧ (chars "<b") ∉ [chars "<a>"]
    ∧ fill_buffer [chars "<b"] (chars ">\n")
        = bufferLoop [] [] ((chars "<b" ++ chars ">") :: [])
    ∧ ∃ r, [chars "<b>"] = (chars "<b" ++ chars ">") :: r := by
  have H := C7_tail_containment (chars "<a>\n<b") (chars "<b")
      [chars "<a>"] [chars "<b"] (by decide) (by decide) (by decide)
  have H2 := H.2.2 (chars ">\n") (chars ">") [] (by decide)
  exact ⟨by decide, H.2.1, H2.1, H2.2 (by decide) [chars "<b>"] [] (by decide)⟩

/-- C2: the claim states that a buffered message failing to parse does not
crash the worker loop, so a non-parseable line between two well-formed
messages prevents neither from being routed.  The source has no handler
around `xmlObject.fromstring` (line 245), so the ParseError aborts the
pass: here the first `CAL` message is routed to the calibration sink, the
bad line is still written to the raw XML sink, the pass then crashes, and
the second `CAL` message is never interpreted — its rows never reach the
calibration sink and it is not even logged. -/
theorem C2_parse_error_aborts_pass :
    (errState (parse_XML initState badPassMsgs)).map ETState.calOut
      = some [chars "A,", chars "1,"]
    ∧ (errState (parse_XML initState badPassMsgs)).map ETState.xmlOut
      = some [chars "<CAL A=\"1\" />", chars "oops"] := by
  constructor
  · decide
  · decide

/-- C3: `calibrated` starts false; one interpreted message leaves it true
exactly when the message carries attribute `ID = CALIB_RESULT` (so the
flag becomes true at the first such message and is never reset by
`parse_XML`); only `stop_eyetracking` resets it to false. -/
theorem C3_calibrated_monotone :
    initState.calibrated = false
    ∧ (∀ s m, (stepState s m).calibrated = (s.calibrated || isCalibResult m))
    ∧ (∀ s, (stop_eyetracking s).calibrated = false) :=
  ⟨rfl, fun s m => stepState_calibrated s m, fun _ => rfl⟩

/-- C4: the claim states that an empty newline-split fragment does not
crash the terminator inspection.  In the source, `line[-1]` on the empty
fragment raises IndexError: on the chunk `"<a>\n\n<b>\n"` (consecutive
separators) the split contains an empty fragment and `fill_buffer`
crashes, modelled as `none`. -/
theorem C4_empty_fragment_crashes :
    [] ∈ splitlines (chars "<a>\n\n<b>\n")
    ∧ fill_buffer [] (chars "<a>\n\n<b>\n") = none := by
  constructor
  · decide
  · decide

/-- C6 counterexample: after two calibration-result messages the
hide-overlay command has been transmitted twice, so the transition's
device command does not fire at most once per session. -/
theorem C6_counterexample :
    (runState initState [calibMsg, calibMsg]).sent
      = [CALIBRATE_HIDE, CALIBRATE_HIDE]
    ∧ (runState initState [calibMsg, calibMsg]).calibrated = true := by
  constructor
  · decide
  · decide

/-- C6 amended: within one session the *state* transition is monotone —
once `calibrated` is true it stays true across `parse_XML` — but the
hide-calibration-overlay command is transmitted anew for every message
whose `ID` attribute equals `CALIB_RESULT`: a completed pass over `msgs`
appends exactly one copy of the command per such message. -/
theorem C6_hide_sent_per_calib_message (s : ETState) (msgs : List (List Char))
    (t : ETState) (h : parse_XML s msgs = Except.ok t) :
    (s.calibrated = true → t.calibrated = true)
    ∧ t.sent = s.sent ++ List.replicate (msgs.countP isCalibResult) CALIBRATE_HIDE := by
  induction msgs generalizing s with
  | nil =>
    unfold parse_XML at h
    simp only [Except.ok.injEq] at h
    subst h
    simp
  | cons m ms ih =>
    unfold parse_XML at h
    cases hp : processMsg s m with
    | error u => rw [hp] at h; exact absurd h (by simp)
    | ok u =>
      rw [hp] at h
      obtain ⟨ihcal, ihsent⟩ := ih u h
      have hcal := processMsg_ok_calibrated s u m hp
      have hsent := processMsg_ok_sent s u m hp
      constructor
      · intro hc
        apply ihcal
        rw [hcal, hc, Bool.true_or]
      · rw [ihsent, hsent, List.countP_cons]
        by_cases hm : isCalibResult m = true
        · simp [hm, List.replicate_succ, List.append_assoc]
        · have hm' : isCalibResult m = false := by
            cases hx : isCalibResult m
            · rfl
            · exact absurd hx hm
          simp [hm']

/-- C6 witness: the amended theorem instantiated on one concrete completed
pass containing a single calibration-result message. -/
theorem C6_witness :
    parse_XML initState [calibMsg] = Except.ok afterCalib
    ∧ afterCalib.sent
        = initState.sent
          ++ List.replicate ([calibMsg].countP isCalibResult) CALIBRATE_HIDE :=
  ⟨rfl, (C6_hide_sent_per_calib_message initState [calibMsg] afterCalib rfl).2⟩

/-- C5 counterexample: two concrete runs refute the claim as stated.
(1) A `REC` record that itself carries `ID="CALIB_RESULT"` is processed
while `calibrated` is false, yet two rows are written to the record sink,
because line 264 flips the flag before the `REC` block runs.
(2) After a calibration result, a `REC` record with zero attributes leaves
`keys_received` false (line 285 sits inside the `for key in keys` loop),
so the next `REC` record produces two rows again — the (empty) header row
is re-written after the first values row instead of exactly once. -/
theorem C5_counterexample :
    initState.calibrated = false
    ∧ (runState initState [recCalibMsg]).recOut = [chars "ID,", chars "CALIB_RESULT,"]
    ∧ (runState initState [calibMsg, emptyRec]).recOut = [[], []]
    ∧ (runState initState [calibMsg, emptyRec, emptyRec]).recOut = [[], [], [], []]
    ∧ (runState initState [calibMsg, emptyRec]).keys_received = false := by
  refine ⟨rfl, by decide, by decide, by decide, by decide⟩

/-- C5 amended: a `REC` record interpreted from a state where `calibrated`
is false writes no row to the record sink **provided the record does not
itself carry `ID=CALIB_RESULT`**; once `calibrated` is true, a `REC`
record **with at least one attribute** appends exactly one values row,
preceded by the header row only when `keys_received` is still false, and
sets `keys_received`, which is monotone thereafter — so with non-empty
attribute lists the header is written exactly once, before the first
values row. -/
theorem C5_record_sink_rows :
    (∀ s m, s.calibrated = false → isCalibResult m = false →
      (stepState s m).recOut = s.recOut)
    ∧ (∀ s m e, s.calibrated = true → fromstring m = some e → e.tag = REC →
        e.attrib ≠ [] →
        (stepState s m).recOut
          = s.recOut ++ (if s.keys_received then [commaJoin (e.attrib.map Prod.snd)]
                         else [commaJoin (e.attrib.map Prod.fst),
                               commaJoin (e.attrib.map Prod.snd)])
        ∧ (stepState s m).keys_received = true)
    ∧ (∀ s m, s.keys_received = true → (stepState s m).keys_received = true) := by
  refine ⟨?_, ?_, fun s m h => stepState_keys_received_mono s m h⟩
  · intro s m hc hm
    unfold stepState processMsg
    cases hf : fromstring m with
    | none => rfl
    | some e =>
      simp only
      rw [isCalibResult_of_fromstring m e hf] at hm
      set s1 := calStep (calibStep { s with xmlOut := s.xmlOut ++ [m] } e) e with hs1
      have h1c : s1.calibrated = false := by
        rw [hs1, calStep_calibrated, calibStep_calibrated, hm, hc]
        rfl
      rw [recStep_of_not_calibrated s1 e h1c, hs1, calStep_recOut, calibStep_recOut]
  · intro s m e hc hf ht ha
    unfold stepState processMsg
    rw [hf]
    simp only
    set s1 := calStep (calibStep { s with xmlOut := s.xmlOut ++ [m] } e) e with hs1
    have h1c : s1.calibrated = true := by
      rw [hs1, calStep_calibrated, calibStep_calibrated]
      simp [hc]
    have h1k : s1.keys_received = s.keys_received := by
      rw [hs1, calStep_keys_received, calibStep_keys_received]
    have h1r : s1.recOut = s.recOut := by
      rw [hs1, calStep_recOut, calibStep_recOut]
    obtain ⟨hrec, hkey⟩ := recStep_rec s1 e h1c ht ha
    rw [hrec, h1r, h1k]
    exact ⟨rfl, hkey⟩

/-- C5 witness: the amended theorem instantiated at the states reached
after a calibration result (header still pending) — the two-attribute
record appends header plus values row and sets `keys_received`. -/
theorem C5_witness :
    (stepState afterCalib recMsg).recOut
      = afterCalib.recOut
        ++ (if afterCalib.keys_received
            then [commaJoin (recElem.attrib.map Prod.snd)]
            else [commaJoin (recElem.attrib.map Prod.fst),
                  commaJoin (recElem.attrib.map Prod.snd)])
    ∧ (stepState afterCalib recMsg).keys_received = true :=
  C5_record_sink_rows.2.1 afterCalib recMsg recElem
    (by decide) (by decide) (by decide) (by decide)

/-- C8: the claim states that `stop_eyetracking` closes all three sinks,
closes the connection and resets calibration.  Line 410 of the source
closes `calibration_output` a second time instead of `XML_output`: after a
started session is stopped, the record and calibration sinks and the
connection are closed and `calibrated` is false, but the raw-XML sink is
still open. -/
theorem C8_xml_sink_left_open :
    (stop_eyetracking (start_eyetracking initState)).xmlOpen = true
    ∧ (stop_eyetracking (start_eyetracking initState)).recordOpen = false
    ∧ (stop_eyetracking (start_eyetracking initState)).calOpen = false
    ∧ (stop_eyetracking (start_eyetracking initState)).connOpen = false
    ∧ (stop_eyetracking (start_eyetracking initState)).calibrated = false := by
  refine ⟨rfl, rfl, rfl, rfl, rfl⟩

/-- C9: the claim states that every access to the shared `is_running` flag
happens under the same mutual-exclusion discipline.  The write at the top
of `WorkerThread.run` (line 348, `self.is_running = True`) is performed
without acquiring `self.lock`, contradicting the module's own docstring;
it is the unique unguarded access among the two methods. -/
theorem C9_unlocked_flag_write :
    (run_accesses.all fun a => a.underLock) = false
    ∧ (stop_running_accesses.all fun a => a.underLock) = true
    ∧ ((run_accesses ++ stop_running_accesses).filter fun a => !a.underLock)
        = [⟨AccessKind.write, false⟩] := by
  refine ⟨rfl, rfl, rfl⟩

/-- C10: `stop_eyetracking` resets `calibrated` but not `keys_received`,
and `start_eyetracking` does not touch it either; `keys_received` is also
monotone across interpretation.  Hence once a session has written the
record header, every later session still sees `keys_received = true`, and
a `REC` record interpreted in such a state appends only a values row —
never a header row — to the (fresh) data-record sink. -/
theorem C10_keys_received_leaks_across_sessions :
    (∀ s, (stop_eyetracking s).keys_received = s.keys_received)
    ∧ (∀ s, (start_eyetracking s).keys_received = s.keys_received)
    ∧ (∀ s m, s.keys_received = true → (stepState s m).keys_received = true)
    ∧ (∀ s m e, s.calibrated = true → s.keys_received = true →
        fromstring m = some e → e.tag = REC →
        (stepState s m).recOut = s.recOut ++ [commaJoin (e.attrib.map Prod.snd)]) := by
  refine ⟨fun s => rfl, fun s => rfl,
          fun s m h => stepState_keys_received_mono s m h, ?_⟩
  intro s m e hc hk hf ht
  unfold stepState processMsg
  rw [hf]
  simp only
  set s1 := calStep (calibStep { s with xmlOut := s.xmlOut ++ [m] } e) e with hs1
  have h1c : s1.calibrated = true := by
    rw [hs1, calStep_calibrated, calibStep_calibrated]
    simp [hc]
  have h1k : s1.keys_received = true := by
    rw [hs1, calStep_keys_received, calibStep_keys_received]
    exact hk
  have h1r : s1.recOut = s.recOut := by
    rw [hs1, calStep_recOut, calibStep_recOut]
  unfold recStep
  rw [h1c, ht, h1k]
  simp [h1r]

/-- C10 witness: a session is stopped after having written the record
header, a new session is started and recalibrated; the first telemetry
record of the new session appends exactly its values row, no header. -/
theorem C10_witness :
    (stepState (stepState (start_eyetracking (stop_eyetracking afterFirstRec)) calibMsg)
        recMsg).recOut
      = (stepState (start_eyetracking (stop_eyetracking afterFirstRec)) calibMsg).recOut
        ++ [commaJoin (recElem.attrib.map Prod.snd)]
    ∧ (stop_eyetracking afterFirstRec).keys_received = afterFirstRec.keys_received :=
  ⟨(C10_keys_received_leaks_across_sessions.2.2.2
      (stepState (start_eyetracking (stop_eyetracking afterFirstRec)) calibMsg)
      recMsg recElem (by decide) (by decide) (by decide) (by decide)),
   C10_keys_received_leaks_across_sessions.1 afterFirstRec⟩

end Eyetracking
